import Mathlib

/-!
Shallow embedding of the styled-text editing core of the Edda repository
(`src/edda_core/src/stylemgr/{style,text,structural}.rs` and
`src/edda_core/src/filemgr/document.rs`).

Rust `String` values are modelled as `List Char`; Rust byte offsets into the
strings handled here coincide with character offsets because every offset the
code manipulates is produced by a substring search for a chunk and hence lands
on a character boundary.  Methods taking `&mut self` and returning
`Result<(), E>` are modelled as functions returning the pair of the `Result`
and the final state; every early `return Err(..)` in the source leaves the
receiver untouched, which the pair makes explicit.  The system-font oracle
(`font_kit::SystemSource`) is external to the repository and is modelled as a
parameter.
-/

namespace Edda

/-- `UnderlineStyle` from style.rs (17 variants; "none" is `Option.none`). -/
inductive UnderlineStyle where
  | Single | Words | Double | Thick | Dotted | DottedHeavy | Dash | DashedHeavy
  | DashLong | DashLongHeavy | DotDash | DashDotHeavy | DotDotDash
  | DashDotDotHeavy | Wave | WavyHeavy | WavyDouble
  deriving DecidableEq

/-- `StyleError` from style.rs.  `FontQueryError` carries the offending font
name; the external `SelectionError` cause is outside the repository and is not
modelled. -/
inductive StyleError where
  | InvalidHexColor (s : List Char)
  | FontNotFound (s : List Char)
  | FontQueryError (s : List Char)
  deriving DecidableEq

/-- `Style` from style.rs. -/
structure Style where
  bold : Bool
  italic : Bool
  underline : Option UnderlineStyle
  size : Nat
  font : List Char
  font_color : List Char
  highlight_color : Option (List Char)
  deriving DecidableEq

/-- `Style::new` (style.rs lines 98-108). -/
def Style.new : Style :=
  { bold := false, italic := false, underline := none, size := 11,
    font := ['A', 'r', 'i', 'a', 'l'],
    font_color := ['#', '0', '0', '0', '0', '0', '0'],
    highlight_color := none }

instance : Inhabited Style := ⟨Style.new⟩

/-- `Style::switch_bold`. -/
def Style.switch_bold (s : Style) : Style := { s with bold := !s.bold }

/-- `Style::switch_italic`. -/
def Style.switch_italic (s : Style) : Style := { s with italic := !s.italic }

/-- `Style::set_underline`. -/
def Style.set_underline (s : Style) (u : Option UnderlineStyle) : Style :=
  { s with underline := u }

/-- `Style::change_size` (the `u8` argument is modelled as `Nat`). -/
def Style.change_size (s : Style) (n : Nat) : Style := { s with size := n }

/-- Rust `char::is_ascii_hexdigit`. -/
def isAsciiHexDigit (c : Char) : Bool :=
  c.isDigit || (('a' ≤ c) && (c ≤ 'f')) || (('A' ≤ c) && (c ≤ 'F'))

/-- Rust `str::starts_with('#')` specialised to the one use in `check_hex`. -/
def startsWithHash : List Char → Bool
  | [] => false
  | c :: _ => c == '#'

/-- `check_hex` from style.rs lines 184-196: `#` followed by exactly 6 or 8
ASCII hex digits.  The source slices `&s[1..]` (modelled by `List.drop 1`) and
tests the three conditions in this order. -/
def check_hex (s : List Char) : Except StyleError Unit :=
  if startsWithHash s = false then Except.error (StyleError.InvalidHexColor s)
  else if ¬ ((s.drop 1).length = 6 ∨ (s.drop 1).length = 8) then
    Except.error (StyleError.InvalidHexColor s)
  else if ¬ ((s.drop 1).all isAsciiHexDigit = true) then
    Except.error (StyleError.InvalidHexColor s)
  else Except.ok ()

/-- The answer of the external system-font oracle for one font name. -/
inductive FontOracleResult where
  | found | notFound | queryErr
  deriving DecidableEq

/-- `check_font` from style.rs lines 199-205, parameterised by the external
oracle (`SystemSource::select_family_by_name`). -/
def check_font (oracle : List Char → FontOracleResult) (s : List Char) :
    Except StyleError Unit :=
  match oracle s with
  | FontOracleResult.found => Except.ok ()
  | FontOracleResult.notFound => Except.error (StyleError.FontNotFound s)
  | FontOracleResult.queryErr => Except.error (StyleError.FontQueryError s)

/-- `Style::change_font_color` (style.rs lines 130-135). -/
def Style.change_font_color (s : Style) (new_color : List Char) :
    Except StyleError Style :=
  match check_hex new_color with
  | Except.error e => Except.error e
  | Except.ok _ => Except.ok { s with font_color := new_color }

/-- `Style::change_font_highlight` (style.rs lines 137-144). -/
def Style.change_font_highlight (s : Style) (new_color : Option (List Char)) :
    Except StyleError Style :=
  match new_color with
  | some color =>
    match check_hex color with
    | Except.error e => Except.error e
    | Except.ok _ => Except.ok { s with highlight_color := new_color }
  | none => Except.ok { s with highlight_color := none }

/-- `Style::change_font` (style.rs lines 146-151), with the external oracle as
a parameter. -/
def Style.change_font (s : Style) (oracle : List Char → FontOracleResult)
    (new_font : List Char) : Except StyleError Style :=
  match check_font oracle new_font with
  | Except.error e => Except.error e
  | Except.ok _ => Except.ok { s with font := new_font }

/-- `StyledText` from text.rs. -/
structure StyledText where
  text : List Char
  style : Style
  deriving DecidableEq

instance : Inhabited StyledText := ⟨⟨[], Style.new⟩⟩

/-- `StyledText::new`. -/
def StyledText.new (text : List Char) (style : Style) : StyledText :=
  ⟨text, style⟩

/-- `ApplicableStyles` from structural.rs. -/
inductive ApplicableStyles where
  | Bold
  | Italic
  | Underline (u : Option UnderlineStyle)
  | Size (n : Nat)
  | Font (s : List Char)
  | Color (s : List Char)
  | Highlight (s : Option (List Char))
  deriving DecidableEq

/-- `StyledText::change_style` (text.rs lines 60-73).  The Rust method assigns
`self.style` from a `match` whose fallible arms use `?`; an error therefore
returns before the assignment, leaving the receiver unchanged.  The pair
returned here is (the `Result`, the final state of the receiver). -/
def StyledText.change_style (st : StyledText)
    (oracle : List Char → FontOracleResult) (command : ApplicableStyles) :
    Except StyleError Unit × StyledText :=
  match command with
  | ApplicableStyles.Bold => (Except.ok (), ⟨st.text, st.style.switch_bold⟩)
  | ApplicableStyles.Italic => (Except.ok (), ⟨st.text, st.style.switch_italic⟩)
  | ApplicableStyles.Underline u =>
    (Except.ok (), ⟨st.text, st.style.set_underline u⟩)
  | ApplicableStyles.Size n => (Except.ok (), ⟨st.text, st.style.change_size n⟩)
  | ApplicableStyles.Color s =>
    match st.style.change_font_color s with
    | Except.error e => (Except.error e, st)
    | Except.ok sty => (Except.ok (), ⟨st.text, sty⟩)
  | ApplicableStyles.Highlight s =>
    match st.style.change_font_highlight s with
    | Except.error e => (Except.error e, st)
    | Except.ok sty => (Except.ok (), ⟨st.text, sty⟩)
  | ApplicableStyles.Font s =>
    match st.style.change_font oracle s with
    | Except.error e => (Except.error e, st)
    | Except.ok sty => (Except.ok (), ⟨st.text, sty⟩)

/-- The Style mutator that `change_style` dispatches to for each command
(spec §4.2: "applies the corresponding Style mutator"). -/
def styleMutator (oracle : List Char → FontOracleResult) (sty : Style) :
    ApplicableStyles → Except StyleError Style
  | ApplicableStyles.Bold => Except.ok sty.switch_bold
  | ApplicableStyles.Italic => Except.ok sty.switch_italic
  | ApplicableStyles.Underline u => Except.ok (sty.set_underline u)
  | ApplicableStyles.Size n => Except.ok (sty.change_size n)
  | ApplicableStyles.Color s => sty.change_font_color s
  | ApplicableStyles.Highlight s => sty.change_font_highlight s
  | ApplicableStyles.Font s => sty.change_font oracle s

/-- `ParagraphModifyError` from structural.rs. -/
inductive ParagraphModifyError where
  | ChunkNotFound (s : List Char)
  | EmptyChunk
  deriving DecidableEq

/-- `StyledParagraph` from structural.rs. -/
structure StyledParagraph where
  raw : List StyledText
  deriving DecidableEq

/-- Rust `str::find(chunk)`: index of the first occurrence of `chunk` as a
contiguous substring, `none` if absent (`"".find("")` is `some 0`, matching
Rust). -/
def findSub : List Char → List Char → Option Nat
  | [], chunk => if chunk.isPrefixOf [] then some 0 else none
  | a :: t, chunk =>
    if chunk.isPrefixOf (a :: t) then some 0
    else (findSub t chunk).map (fun n => n + 1)

/-- The search in `StyledParagraph::modify` (structural.rs lines 96-100):
`self.raw.iter().enumerate().find_map(|(n, st)| st.text.find(chunk).map(..))`,
returning the first run index whose text contains `chunk` together with the
offset of the first occurrence inside that run. -/
def findInRuns : List StyledText → List Char → Option (Nat × Nat)
  | [], _ => none
  | st :: rest, chunk =>
    match findSub st.text chunk with
    | some off => some (0, off)
    | none => (findInRuns rest chunk).map (fun q => (q.1 + 1, q.2))

/-- `StyledParagraph::modify` (structural.rs lines 91-129).  On success the
matched run is spliced (`splice(idx..=idx, ..)`) into: prefix text with the
original style if non-empty, the chunk with the new style, suffix text with
the original style if non-empty. -/
def StyledParagraph.modify (p : StyledParagraph) (style : Style)
    (chunk : List Char) : Except ParagraphModifyError Unit × StyledParagraph :=
  if chunk = [] then (Except.error ParagraphModifyError.EmptyChunk, p)
  else
    match findInRuns p.raw chunk with
    | none => (Except.error (ParagraphModifyError.ChunkNotFound chunk), p)
    | some (idx, start_offset) =>
      let original := p.raw.getD idx default
      let prefix_text := original.text.take start_offset
      let suffix_text := original.text.drop (start_offset + chunk.length)
      let replacements :=
        (if prefix_text = [] then [] else [StyledText.new prefix_text original.style])
        ++ [StyledText.new chunk style]
        ++ (if suffix_text = [] then [] else [StyledText.new suffix_text original.style])
      (Except.ok (), ⟨p.raw.take idx ++ replacements ++ p.raw.drop (idx + 1)⟩)

/-- The concatenation of the texts of a run list, as built by
`self.raw.iter().map(|st| st.text.as_str()).collect::<String>()`
(structural.rs line 193). -/
def fullText : List StyledText → List Char
  | [] => []
  | st :: rest => st.text ++ fullText rest

/-- The scan locating the run containing absolute offset `a` (structural.rs
lines 195-212): the first index `i` with `a < cumulative_len + len i`, paired
with `a - cumulative_len`.  The running subtraction is exact because the scan
only moves past a segment when `a` is at or beyond its end. -/
def locateStart : List StyledText → Nat → Option (Nat × Nat)
  | [], _ => none
  | seg :: rest, a =>
    if a < seg.text.length then some (0, a)
    else (locateStart rest (a - seg.text.length)).map (fun q => (q.1 + 1, q.2))

/-- The scan locating the run containing absolute end offset `e` (structural.rs
lines 200-208): the first index `i` with `e ≤ end_cumulative_len + len i`,
paired with `e - end_cumulative_len`. -/
def locateEnd : List StyledText → Nat → Option (Nat × Nat)
  | [], _ => none
  | seg :: rest, e =>
    if e ≤ seg.text.length then some (0, e)
    else (locateEnd rest (e - seg.text.length)).map (fun q => (q.1 + 1, q.2))

/-- The full-concatenation search of `modify_spanning` (structural.rs lines
192-216): find the chunk in the concatenated text, then locate the (start run,
start offset) and (end run, end offset) pairs.  `none` corresponds to
`start_info`/`end_info` remaining unset, which the method reports as
`ChunkNotFound`. -/
def spanningFallback (raw : List StyledText) (chunk : List Char) :
    Option ((Nat × Nat) × (Nat × Nat)) :=
  match findSub (fullText raw) chunk with
  | none => none
  | some a =>
    match locateStart raw a, locateEnd raw (a + chunk.length) with
    | some s, some e => some (s, e)
    | _, _ => none

/-- The search loop of `StyledParagraph::modify_spanning` (structural.rs lines
173-227).  The loop body always resolves during its first iteration: with
`start_info` unset it either finds the chunk inside the first segment and
breaks, or runs the full-text search and breaks (or returns `ChunkNotFound`).
An empty run list leaves `start_info` unset. -/
def spanningSearch (raw : List StyledText) (chunk : List Char) :
    Option ((Nat × Nat) × (Nat × Nat)) :=
  match raw with
  | [] => none
  | seg :: _ =>
    match findSub seg.text chunk with
    | some relative_start =>
      if relative_start + chunk.length ≤ seg.text.length then
        some ((0, relative_start), (0, relative_start + chunk.length))
      else spanningFallback raw chunk
    | none => spanningFallback raw chunk

/-- `StyledParagraph::modify_spanning` (structural.rs lines 164-255).  On
success, runs `start_idx..=end_idx` are spliced into: the start run's text
before the match with the start run's style if the start offset is positive,
the chunk with the new style, and the end run's text after the match with the
end run's style if the end offset is short of that run's length. -/
def StyledParagraph.modify_spanning (p : StyledParagraph) (style : Style)
    (chunk : List Char) : Except ParagraphModifyError Unit × StyledParagraph :=
  if chunk = [] then (Except.error ParagraphModifyError.EmptyChunk, p)
  else
    match spanningSearch p.raw chunk with
    | none => (Except.error (ParagraphModifyError.ChunkNotFound chunk), p)
    | some ((start_idx, start_off), (end_idx, end_off)) =>
      let start_segment := p.raw.getD start_idx default
      let end_segment := p.raw.getD end_idx default
      let replacements :=
        (if 0 < start_off then
          [StyledText.new (start_segment.text.take start_off) start_segment.style]
         else [])
        ++ [StyledText.new chunk style]
        ++ (if end_off < end_segment.text.length then
          [StyledText.new (end_segment.text.drop end_off) end_segment.style]
         else [])
      (Except.ok (), ⟨p.raw.take start_idx ++ replacements ++ p.raw.drop (end_idx + 1)⟩)

/-- `Metadata` from document.rs (string fields as `List Char`). -/
structure Metadata where
  title : List Char
  authors : Option (List (List Char)) := none
  description : Option (List Char) := none
  category : Option (List Char) := none
  version : Option (List Char) := none
  status : Option (List Char) := none
  language : Option (List Char) := none
  keywords : Option (List (List Char)) := none
  deriving DecidableEq

/-- `Document` from document.rs. -/
structure Document where
  content : List StyledParagraph
  metadata : Metadata
  deriving DecidableEq

/-- `Document::remove_paragraph` (document.rs lines 207-213): returns the
removed paragraph if the index was valid, pairing the `Option` result with the
final state of the document (`Vec::remove` shifts later elements left). -/
def Document.remove_paragraph (d : Document) (index : Nat) :
    Option StyledParagraph × Document :=
  if index < d.content.length then
    (d.content.get? index, { d with content := d.content.eraseIdx index })
  else (none, d)

/-- `Document::get_paragraph` (document.rs lines 222-224): `content.get(index)`. -/
def Document.get_paragraph (d : Document) (index : Nat) :
    Option StyledParagraph :=
  d.content.get? index

/-- `Document::get_paragraph_mut` (document.rs lines 233-235):
`content.get_mut(index)`; the paragraph the mutable reference designates. -/
def Document.get_paragraph_mut (d : Document) (index : Nat) :
    Option StyledParagraph :=
  d.content.get? index

/-- `Document::paragraph_count`. -/
def Document.paragraph_count (d : Document) : Nat := d.content.length

instance : Inhabited StyledParagraph := ⟨⟨[]⟩⟩

/-- The space character, written via its code point. -/
def spc : Char := Char.ofNat 32

/-- Example text "This is a test." (structural.rs test `test_paragraph_modify_simple`). -/
def exText1 : List Char :=
  ['T', 'h', 'i', 's', spc, 'i', 's', spc, 'a', spc, 't', 'e', 's', 't', '.']

/-- Example chunk "is a". -/
def exChunk1 : List Char := ['i', 's', spc, 'a']

/-- Example split pieces "This " and " test.". -/
def exPre1 : List Char := ['T', 'h', 'i', 's', spc]

def exSuf1 : List Char := [spc, 't', 'e', 's', 't', '.']

/-- Example texts "Part1 " / "Part2" and spanning chunk "t1 P"
(structural.rs test `test_paragraph_modify_spanning_two_segments`). -/
def exPartA : List Char := ['P', 'a', 'r', 't', '1', spc]

def exPartB : List Char := ['P', 'a', 'r', 't', '2']

def exChunk2 : List Char := ['t', '1', spc, 'P']

def exPre2 : List Char := ['P', 'a', 'r']

def exSuf2 : List Char := ['a', 'r', 't', '2']

/-- Example paragraph with the single run "This is a test.". -/
def exPara : StyledParagraph := ⟨[StyledText.new exText1 Style.new]⟩

/-- Example paragraph with runs "Part1 " / "Part2". -/
def exParaSpan : StyledParagraph :=
  ⟨[StyledText.new exPartA Style.new, StyledText.new exPartB Style.new.switch_italic]⟩

/-- Example chunk "zz" absent from both example paragraphs. -/
def exMissing : List Char := ['z', 'z']

/-- Hex-validation example strings from spec §8. -/
def hex000000 : List Char := ['#', '0', '0', '0', '0', '0', '0']

def hexAABBCCDD : List Char := ['#', 'A', 'A', 'B', 'B', 'C', 'C', 'D', 'D']

def hexNoHash : List Char := ['0', '0', '0', '0', '0', '0']

def hex12345 : List Char := ['#', '1', '2', '3', '4', '5']

def hexGGHHII : List Char := ['#', 'G', 'G', 'H', 'H', 'I', 'I']

/-- A font name used in examples. -/
def fontZ : List Char := ['Z', 'z', 'f', 'o', 'n', 't']

/-- A font oracle that rejects every name as unknown. -/
def oracleNone : List Char → FontOracleResult := fun _ => FontOracleResult.notFound

/-! ### Helper lemmas: substring search -/

theorem isPrefixOf_iff {c h : List Char} : c.isPrefixOf h = true ↔ c <+: h :=
  List.isPrefixOf_iff_prefix

theorem findSub_eq_none_iff (h c : List Char) :
    findSub h c = none ↔ ∀ j, ¬ c <+: h.drop j := by
  induction h with
  | nil =>
    by_cases hp : c <+: ([] : List Char)
    · have hb : c.isPrefixOf ([] : List Char) = true := isPrefixOf_iff.mpr hp
      simp only [findSub, hb, if_true]
      exact iff_of_false (by simp) (fun hall => hall 0 (by simpa using hp))
    · have hb : c.isPrefixOf ([] : List Char) = false := by
        cases hbv : c.isPrefixOf ([] : List Char)
        · rfl
        · exact absurd (isPrefixOf_iff.mp hbv) hp
      simp only [findSub, hb]
      exact iff_of_true (by simp) (fun j => by simpa using hp)
  | cons x t ih =>
    by_cases hp : c <+: (x :: t)
    · have hb : c.isPrefixOf (x :: t) = true := isPrefixOf_iff.mpr hp
      simp only [findSub, hb, if_true]
      exact iff_of_false (by simp) (fun hall => hall 0 (by simpa using hp))
    · have hb : c.isPrefixOf (x :: t) = false := by
        cases hbv : c.isPrefixOf (x :: t)
        · rfl
        · exact absurd (isPrefixOf_iff.mp hbv) hp
      simp only [findSub, hb, Bool.false_eq_true, if_false, Option.map_eq_none']
      rw [ih]
      constructor
      · intro hall j
        match j with
        | 0 => simpa using hp
        | Nat.succ j' => simpa using hall j'
      · intro hall j
        simpa using hall (j + 1)

theorem findSub_eq_some_iff (h c : List Char) (i : Nat) :
    findSub h c = some i ↔
      (c <+: h.drop i ∧ ∀ j, j < i → ¬ c <+: h.drop j) := by
  induction h generalizing i with
  | nil =>
    by_cases hp : c <+: ([] : List Char)
    · have hb : c.isPrefixOf ([] : List Char) = true := isPrefixOf_iff.mpr hp
      simp only [findSub, hb, if_true, List.drop_nil]
      constructor
      · intro hi
        have : i = 0 := by simpa using hi.symm
        subst this
        exact ⟨hp, fun j hj => absurd hj (Nat.not_lt_zero j)⟩
      · rintro ⟨-, hmin⟩
        rcases Nat.eq_zero_or_pos i with h0 | h0
        · simp [h0]
        · exact absurd hp (hmin 0 h0)
    · have hb : c.isPrefixOf ([] : List Char) = false := by
        cases hbv : c.isPrefixOf ([] : List Char)
        · rfl
        · exact absurd (isPrefixOf_iff.mp hbv) hp
      simp only [findSub, hb, Bool.false_eq_true, if_false, List.drop_nil]
      exact iff_of_false (by simp) (fun hc => hp hc.1)
  | cons x t ih =>
    by_cases hp : c <+: (x :: t)
    · have hb : c.isPrefixOf (x :: t) = true := isPrefixOf_iff.mpr hp
      simp only [findSub, hb, if_true]
      constructor
      · intro hi
        have : i = 0 := by simpa using hi.symm
        subst this
        exact ⟨by simpa using hp, fun j hj => absurd hj (Nat.not_lt_zero j)⟩
      · rintro ⟨-, hmin⟩
        rcases Nat.eq_zero_or_pos i with h0 | h0
        · simp [h0]
        · exact absurd hp (by simpa using hmin 0 h0)
    · have hb : c.isPrefixOf (x :: t) = false := by
        cases hbv : c.isPrefixOf (x :: t)
        · rfl
        · exact absurd (isPrefixOf_iff.mp hbv) hp
      simp only [findSub, hb, Bool.false_eq_true, if_false]
      constructor
      · intro hi
        rcases Option.map_eq_some'.mp hi with ⟨n, hn, hni⟩
        subst hni
        rcases (ih n).mp hn with ⟨hat, hmin⟩
        refine ⟨by simpa using hat, ?_⟩
        intro j hj
        match j with
        | 0 => simpa using hp
        | Nat.succ j' =>
          have : j' < n := by omega
          simpa using hmin j' this
      · rintro ⟨hat, hmin⟩
        rcases Nat.eq_zero_or_pos i with h0 | h0
        · subst h0
          exact absurd (by simpa using hat) hp
        · obtain ⟨i', rfl⟩ : ∃ i', i = i' + 1 := ⟨i - 1, by omega⟩
          have hrec : findSub t c = some i' := by
            refine (ih i').mpr ⟨by simpa using hat, ?_⟩
            intro j hj
            have := hmin (j + 1) (by omega)
            simpa using this
          simp [hrec]

theorem findSub_bound {h c : List Char} {i : Nat} (hf : findSub h c = some i) :
    i + c.length ≤ h.length := by
  induction h generalizing i with
  | nil =>
    by_cases hp : c.isPrefixOf ([] : List Char)
    · simp only [findSub, hp, if_true] at hf
      have h0 : i = 0 := by simpa using hf.symm
      have hc : c = [] := by simpa using isPrefixOf_iff.mp hp
      simp [h0, hc]
    · simp [findSub, hp] at hf
  | cons x t ih =>
    by_cases hp : c.isPrefixOf (x :: t)
    · simp only [findSub, hp, if_true] at hf
      have h0 : i = 0 := by simpa using hf.symm
      have := (isPrefixOf_iff.mp hp).length_le
      simpa [h0] using this
    · simp only [findSub, hp, Bool.false_eq_true, if_false] at hf
      rcases Option.map_eq_some'.mp hf with ⟨n, hn, hni⟩
      subst hni
      have := ih hn
      simp only [List.length_cons]
      omega

theorem findSub_split {h c : List Char} {i : Nat} (hf : findSub h c = some i) :
    h = h.take i ++ c ++ h.drop (i + c.length) := by
  rcases ((findSub_eq_some_iff h c i).mp hf).1 with ⟨t, ht⟩
  have hdrop : h.drop (i + c.length) = t := by
    have h1 : (h.drop i).drop c.length = t := by
      rw [← ht, List.drop_left]
    rw [← h1, List.drop_drop]
  rw [hdrop, List.append_assoc, ht, List.take_append_drop]

theorem exists_findSub {h c : List Char} {j : Nat} (hp : c <+: h.drop j) :
    ∃ i, findSub h c = some i ∧ i ≤ j := by
  cases hf : findSub h c with
  | none => exact absurd hp ((findSub_eq_none_iff h c).mp hf j)
  | some i =>
    refine ⟨i, rfl, ?_⟩
    by_contra hlt
    exact ((findSub_eq_some_iff h c i).mp hf).2 j (by omega) hp

theorem infix_iff_exists_drop {c h : List Char} :
    c <:+: h ↔ ∃ i, c <+: h.drop i := by
  constructor
  · rintro ⟨s, t, rfl⟩
    refine ⟨s.length, t, ?_⟩
    rw [List.append_assoc, List.drop_left]
  · rintro ⟨i, t, ht⟩
    exact ⟨h.take i, t, by rw [List.append_assoc, ht, List.take_append_drop]⟩

theorem pre_of_append {c x y : List Char} (hp : c <+: x ++ y)
    (hle : c.length ≤ x.length) : c <+: x := by
  have hc : c = (x ++ y).take c.length := List.prefix_iff_eq_take.mp hp
  rw [List.take_append_eq_append_take] at hc
  have h0 : c.length - x.length = 0 := by omega
  rw [h0, List.take_zero, List.append_nil] at hc
  refine ⟨x.drop c.length, ?_⟩
  nth_rewrite 1 [hc]
  exact List.take_append_drop _ _

/-! ### Helper lemmas: concatenated paragraph text -/

theorem fullText_nil : fullText [] = [] := rfl

theorem fullText_append (l₁ l₂ : List StyledText) :
    fullText (l₁ ++ l₂) = fullText l₁ ++ fullText l₂ := by
  induction l₁ with
  | nil => simp [fullText]
  | cons st rest ih => simp [fullText, ih]

theorem fullText_decomp (raw : List StyledText) (k : Nat) (hk : k < raw.length) :
    fullText raw =
      fullText (raw.take k) ++ (raw.getD k default).text
        ++ fullText (raw.drop (k + 1)) := by
  conv_lhs => rw [← List.take_append_drop k raw]
  rw [fullText_append, List.drop_eq_getElem_cons hk]
  show _ ++ fullText (_ :: _) = _
  rw [fullText]
  rw [List.getD_eq_getElem _ _ hk, List.append_assoc]

theorem fullText_take_succ (raw : List StyledText) (j : Nat)
    (hj : j < raw.length) :
    fullText (raw.take (j + 1)) =
      fullText (raw.take j) ++ (raw.getD j default).text := by
  rw [List.take_succ, fullText_append, List.getD_eq_getElem _ _ hj]
  have : raw[j]?.toList = [raw[j]] := by
    simp [List.getElem?_eq_getElem hj]
  rw [this]
  simp [fullText]

theorem fullText_take_le (raw : List StyledText) {i j : Nat} (h : i ≤ j) :
    (fullText (raw.take i)).length ≤ (fullText (raw.take j)).length := by
  have h1 : (raw.take j).take i = raw.take i := by
    rw [List.take_take, Nat.min_eq_left h]
  have h2 : raw.take j = raw.take i ++ (raw.take j).drop i := by
    conv_lhs => rw [← List.take_append_drop i (raw.take j)]
    rw [h1]
  rw [h2, fullText_append, List.length_append]
  omega

theorem fullText_ne_nil {raw : List StyledText} (hne : raw ≠ [])
    (hall : ∀ st ∈ raw, st.text ≠ []) : fullText raw ≠ [] := by
  cases raw with
  | nil => exact absurd rfl hne
  | cons seg rest =>
    have h0 : seg.text ≠ [] := hall seg (by simp)
    show seg.text ++ fullText rest ≠ []
    exact fun h => h0 (List.append_eq_nil.mp h).1

/-! ### Helper lemmas: the run-locating scans -/

theorem locateStart_spec :
    ∀ (raw : List StyledText) (a k s : Nat), locateStart raw a = some (k, s) →
      k < raw.length ∧ s < (raw.getD k default).text.length ∧
        (fullText (raw.take k)).length + s = a := by
  intro raw
  induction raw with
  | nil => intro a k s h; simp [locateStart] at h
  | cons seg rest ih =>
    intro a k s h
    by_cases hlt : a < seg.text.length
    · rw [locateStart, if_pos hlt] at h
      injection h with h
      injection h with h1 h2
      subst h1; subst h2
      refine ⟨Nat.succ_pos _, by simpa using hlt, by simp [fullText]⟩
    · rw [locateStart, if_neg hlt] at h
      rcases Option.map_eq_some'.mp h with ⟨⟨k', s'⟩, hrec, hks⟩
      injection hks with h1 h2
      subst h1; subst h2
      obtain ⟨ih1, ih2, ih3⟩ := ih (a - seg.text.length) k' s' hrec
      refine ⟨by simpa using Nat.succ_lt_succ ih1, by simpa using ih2, ?_⟩
      rw [List.take_succ_cons]
      show (seg.text ++ fullText (rest.take k')).length + s' = a
      rw [List.length_append]
      omega

theorem locateStart_isSome :
    ∀ (raw : List StyledText) (a : Nat), a < (fullText raw).length →
      ∃ ks, locateStart raw a = some ks := by
  intro raw
  induction raw with
  | nil => intro a ha; simp [fullText] at ha
  | cons seg rest ih =>
    intro a ha
    by_cases hlt : a < seg.text.length
    · exact ⟨(0, a), by rw [locateStart, if_pos hlt]⟩
    · have hrem : a - seg.text.length < (fullText rest).length := by
        have : (fullText (seg :: rest)).length = seg.text.length + (fullText rest).length := by
          show (seg.text ++ fullText rest).length = _
          rw [List.length_append]
        omega
      rcases ih _ hrem with ⟨⟨k, s⟩, hks⟩
      exact ⟨(k + 1, s), by rw [locateStart, if_neg hlt, hks, Option.map_some']⟩

theorem locateEnd_spec :
    ∀ (raw : List StyledText) (b m e : Nat), locateEnd raw b = some (m, e) →
      m < raw.length ∧ e ≤ (raw.getD m default).text.length ∧
        (fullText (raw.take m)).length + e = b := by
  intro raw
  induction raw with
  | nil => intro b m e h; simp [locateEnd] at h
  | cons seg rest ih =>
    intro b m e h
    by_cases hle : b ≤ seg.text.length
    · rw [locateEnd, if_pos hle] at h
      injection h with h
      injection h with h1 h2
      subst h1; subst h2
      refine ⟨Nat.succ_pos _, by simpa using hle, by simp [fullText]⟩
    · rw [locateEnd, if_neg hle] at h
      rcases Option.map_eq_some'.mp h with ⟨⟨m', e'⟩, hrec, hme⟩
      injection hme with h1 h2
      subst h1; subst h2
      obtain ⟨ih1, ih2, ih3⟩ := ih (b - seg.text.length) m' e' hrec
      refine ⟨by simpa using Nat.succ_lt_succ ih1, by simpa using ih2, ?_⟩
      rw [List.take_succ_cons]
      show (seg.text ++ fullText (rest.take m')).length + e' = b
      rw [List.length_append]
      omega

theorem locateEnd_isSome :
    ∀ (raw : List StyledText) (b : Nat), 0 < b → b ≤ (fullText raw).length →
      ∃ me, locateEnd raw b = some me := by
  intro raw
  induction raw with
  | nil => intro b hb hle; simp [fullText] at hle; omega
  | cons seg rest ih =>
    intro b hb hle
    by_cases hseg : b ≤ seg.text.length
    · exact ⟨(0, b), by rw [locateEnd, if_pos hseg]⟩
    · have hlen : (fullText (seg :: rest)).length
          = seg.text.length + (fullText rest).length := by
        show (seg.text ++ fullText rest).length = _
        rw [List.length_append]
      have h1 : 0 < b - seg.text.length := by omega
      have h2 : b - seg.text.length ≤ (fullText rest).length := by omega
      rcases ih _ h1 h2 with ⟨⟨m, e⟩, hme⟩
      exact ⟨(m + 1, e), by rw [locateEnd, if_neg hseg, hme, Option.map_some']⟩

theorem locateEnd_full :
    ∀ (raw : List StyledText), raw ≠ [] → (∀ st ∈ raw, st.text ≠ []) →
      locateEnd raw (fullText raw).length =
        some (raw.length - 1, (raw.getD (raw.length - 1) default).text.length) := by
  intro raw
  induction raw with
  | nil => intro h; exact absurd rfl h
  | cons seg rest ih =>
    intro _ hall
    have hlen : (fullText (seg :: rest)).length
        = seg.text.length + (fullText rest).length := by
      show (seg.text ++ fullText rest).length = _
      rw [List.length_append]
    cases rest with
    | nil =>
      rw [locateEnd, if_pos (by simp [fullText])]
      simp [fullText]
    | cons r rs =>
      have hrne : (r :: rs) ≠ [] := by simp
      have hrall : ∀ st ∈ (r :: rs), st.text ≠ [] :=
        fun st hst => hall st (List.mem_cons_of_mem _ hst)
      have hfne : fullText (r :: rs) ≠ [] := fullText_ne_nil hrne hrall
      have hpos : 0 < (fullText (r :: rs)).length := List.length_pos.mpr hfne
      have hcond : ¬ ((fullText (seg :: r :: rs)).length ≤ seg.text.length) := by
        omega
      rw [locateEnd, if_neg hcond]
      have harg : (fullText (seg :: r :: rs)).length - seg.text.length
          = (fullText (r :: rs)).length := by omega
      rw [harg, ih hrne hrall, Option.map_some']
      have h2 : (seg :: r :: rs).getD ((seg :: r :: rs).length - 1) default
          = (r :: rs).getD ((r :: rs).length - 1) default := by
        have h3 : (seg :: r :: rs).length - 1 = ((r :: rs).length - 1) + 1 := by simp
        rw [h3, List.getD_cons_succ]
      have h1 : (r :: rs).length - 1 + 1 = (seg :: r :: rs).length - 1 := by simp
      rw [h2, ← h1]

/-! ### Helper lemmas: slicing the concatenated text at run boundaries -/

theorem take_fullText_decomp (raw : List StyledText) (k t : Nat)
    (hk : k < raw.length) (ht : t ≤ (raw.getD k default).text.length) :
    (fullText raw).take ((fullText (raw.take k)).length + t) =
      fullText (raw.take k) ++ (raw.getD k default).text.take t := by
  rw [fullText_decomp raw k hk, List.append_assoc, List.take_append_eq_append_take]
  rw [List.take_of_length_le (by omega)]
  have h2 : (fullText (raw.take k)).length + t - (fullText (raw.take k)).length = t := by
    omega
  rw [h2, List.take_append_eq_append_take]
  have h3 : t - (raw.getD k default).text.length = 0 := by omega
  rw [h3, List.take_zero, List.append_nil]

theorem drop_fullText_decomp (raw : List StyledText) (k t : Nat)
    (hk : k < raw.length) (ht : t ≤ (raw.getD k default).text.length) :
    (fullText raw).drop ((fullText (raw.take k)).length + t) =
      (raw.getD k default).text.drop t ++ fullText (raw.drop (k + 1)) := by
  rw [fullText_decomp raw k hk, List.append_assoc, List.drop_append_eq_append_drop]
  rw [List.drop_eq_nil_of_le (by omega), List.nil_append]
  have h2 : (fullText (raw.take k)).length + t - (fullText (raw.take k)).length = t := by
    omega
  rw [h2, List.drop_append_eq_append_drop]
  have h3 : t - (raw.getD k default).text.length = 0 := by omega
  rw [h3, List.drop_zero]

theorem occ_in_full {raw : List StyledText} {c : List Char} {k t : Nat}
    (hk : k < raw.length) (ht : t ≤ (raw.getD k default).text.length)
    (hp : c <+: (raw.getD k default).text.drop t) :
    c <+: (fullText raw).drop ((fullText (raw.take k)).length + t) := by
  rw [drop_fullText_decomp raw k t hk ht]
  rcases hp with ⟨u, hu⟩
  exact ⟨u ++ fullText (raw.drop (k + 1)), by rw [← List.append_assoc, hu]⟩

theorem occ_in_run {raw : List StyledText} {c : List Char} {k t : Nat}
    (hk : k < raw.length) (ht : t + c.length ≤ (raw.getD k default).text.length)
    (hp : c <+: (fullText raw).drop ((fullText (raw.take k)).length + t)) :
    c <+: (raw.getD k default).text.drop t := by
  rw [drop_fullText_decomp raw k t hk (by omega)] at hp
  refine pre_of_append hp ?_
  rw [List.length_drop]
  omega

/-! ### Helper lemmas: the spanning search -/

theorem spanningFallback_none_eq {raw : List StyledText} {c : List Char}
    (hf : findSub (fullText raw) c = none) : spanningFallback raw c = none := by
  unfold spanningFallback
  rw [hf]

theorem spanningFallback_some_eq {raw : List StyledText} {c : List Char} {a : Nat}
    (hf : findSub (fullText raw) c = some a) :
    spanningFallback raw c =
      match locateStart raw a, locateEnd raw (a + c.length) with
      | some s, some e => some (s, e)
      | _, _ => none := by
  unfold spanningFallback
  rw [hf]

theorem spanningFallback_eq_some_iff {raw : List StyledText} {c : List Char}
    {k s m e : Nat} :
    spanningFallback raw c = some ((k, s), (m, e)) ↔
      ∃ a, findSub (fullText raw) c = some a ∧ locateStart raw a = some (k, s) ∧
        locateEnd raw (a + c.length) = some (m, e) := by
  constructor
  · intro h
    cases hf : findSub (fullText raw) c with
    | none =>
      rw [spanningFallback_none_eq hf] at h
      cases h
    | some a =>
      rw [spanningFallback_some_eq hf] at h
      split at h
      next ks me hks hme =>
        injection h with h
        injection h with h1 h2
        subst h1; subst h2
        exact ⟨a, rfl, hks, hme⟩
      next hbad =>
        cases h
  · rintro ⟨a, ha, hs, he⟩
    rw [spanningFallback_some_eq ha, hs, he]

theorem spanningSearch_eq (raw : List StyledText) (c : List Char) (hc : c ≠ []) :
    spanningSearch raw c = spanningFallback raw c := by
  cases raw with
  | nil =>
    have hf : findSub (fullText ([] : List StyledText)) c = none := by
      rw [findSub_eq_none_iff]
      intro j hp
      rw [show fullText ([] : List StyledText) = [] from rfl, List.drop_nil] at hp
      exact hc (List.prefix_nil.mp hp)
    rw [spanningFallback_none_eq hf]
    rfl
  | cons seg rest =>
    have hcons : spanningSearch (seg :: rest) c =
        match findSub seg.text c with
        | some relative_start =>
          if relative_start + c.length ≤ seg.text.length then
            some ((0, relative_start), (0, relative_start + c.length))
          else spanningFallback (seg :: rest) c
        | none => spanningFallback (seg :: rest) c := rfl
    cases hf0 : findSub seg.text c with
    | none =>
      rw [hcons, hf0]
    | some rel =>
      have hbound := findSub_bound hf0
      have hclen : 0 < c.length := List.length_pos.mpr hc
      obtain ⟨hat0, hmin0⟩ := (findSub_eq_some_iff seg.text c rel).mp hf0
      rw [hcons, hf0]
      show (if rel + c.length ≤ seg.text.length then
          some ((0, rel), (0, rel + c.length))
        else spanningFallback (seg :: rest) c) = spanningFallback (seg :: rest) c
      rw [if_pos hbound]
      symm
      rw [spanningFallback_eq_some_iff]
      have hk0 : (0 : Nat) < (seg :: rest).length := Nat.succ_pos _
      refine ⟨rel, ?_, ?_, ?_⟩
      · rw [findSub_eq_some_iff]
        constructor
        · have := @occ_in_full (seg :: rest) c 0 rel hk0
            (by simpa using Nat.le_of_lt_succ (Nat.lt_succ_of_le (by omega))) (by simpa using hat0)
          simpa [fullText_nil] using this
        · intro j hj hp
          have hjb : j + c.length ≤ seg.text.length := by omega
          have := @occ_in_run (seg :: rest) c 0 j hk0
            (by simpa using hjb) (by simpa [fullText_nil] using hp)
          exact hmin0 j hj (by simpa using this)
      · rw [locateStart, if_pos (by omega)]
      · rw [locateEnd, if_pos hbound]

theorem spanningSearch_bounds {raw : List StyledText} {c : List Char}
    {k s m e : Nat} (hc : c ≠ [])
    (h : spanningSearch raw c = some ((k, s), (m, e))) :
    k < raw.length ∧ s < (raw.getD k default).text.length ∧
      m < raw.length ∧ e ≤ (raw.getD m default).text.length := by
  rw [spanningSearch_eq raw c hc, spanningFallback_eq_some_iff] at h
  obtain ⟨a, ha, hs, he⟩ := h
  obtain ⟨h1, h2, h3⟩ := locateStart_spec raw a k s hs
  obtain ⟨h4, h5, h6⟩ := locateEnd_spec raw _ m e he
  exact ⟨h1, h2, h4, h5⟩

theorem spanning_text_preserved {raw : List StyledText} {c : List Char}
    (style : Style) {a k s m e : Nat}
    (ha : findSub (fullText raw) c = some a)
    (hs : locateStart raw a = some (k, s))
    (he : locateEnd raw (a + c.length) = some (m, e)) :
    fullText (raw.take k
      ++ ((if 0 < s then
            [StyledText.new ((raw.getD k default).text.take s) (raw.getD k default).style]
          else [])
        ++ [StyledText.new c style]
        ++ (if e < (raw.getD m default).text.length then
            [StyledText.new ((raw.getD m default).text.drop e) (raw.getD m default).style]
          else []))
      ++ raw.drop (m + 1)) = fullText raw := by
  obtain ⟨hk, hsl, hsum⟩ := locateStart_spec raw a k s hs
  obtain ⟨hm, hel, hesum⟩ := locateEnd_spec raw _ m e he
  have hsplit := findSub_split ha
  have hpre : fullText (if 0 < s then
      [StyledText.new ((raw.getD k default).text.take s) (raw.getD k default).style]
    else []) = (raw.getD k default).text.take s := by
    by_cases h0 : 0 < s
    · rw [if_pos h0]
      show (raw.getD k default).text.take s ++ ([] : List Char) = _
      rw [List.append_nil]
    · rw [if_neg h0]
      have hs0 : s = 0 := by omega
      rw [hs0, List.take_zero]
      rfl
  have hsuf : fullText (if e < (raw.getD m default).text.length then
      [StyledText.new ((raw.getD m default).text.drop e) (raw.getD m default).style]
    else []) = (raw.getD m default).text.drop e := by
    by_cases h0 : e < (raw.getD m default).text.length
    · rw [if_pos h0]
      show (raw.getD m default).text.drop e ++ ([] : List Char) = _
      rw [List.append_nil]
    · rw [if_neg h0]
      rw [List.drop_eq_nil_of_le (by omega)]
      rfl
  rw [fullText_append, fullText_append, fullText_append, fullText_append, hpre, hsuf]
  have hch : fullText [StyledText.new c style] = c := by
    show c ++ ([] : List Char) = c
    rw [List.append_nil]
  rw [hch]
  have ht1 : (fullText raw).take a
      = fullText (raw.take k) ++ (raw.getD k default).text.take s := by
    rw [← hsum]
    exact take_fullText_decomp raw k s hk (by omega)
  have ht2 : (fullText raw).drop (a + c.length)
      = (raw.getD m default).text.drop e ++ fullText (raw.drop (m + 1)) := by
    rw [← hesum]
    exact drop_fullText_decomp raw m e hm hel
  conv_rhs => rw [hsplit]
  rw [ht1, ht2]
  simp [List.append_assoc]

/-! ### Helper lemmas: the per-run search of `modify` -/

theorem findInRuns_eq_some_iff :
    ∀ (raw : List StyledText) (c : List Char) (idx off : Nat),
      findInRuns raw c = some (idx, off) ↔
        (idx < raw.length ∧ findSub (raw.getD idx default).text c = some off ∧
          ∀ j, j < idx → findSub (raw.getD j default).text c = none) := by
  intro raw c
  induction raw with
  | nil => intro idx off; simp [findInRuns]
  | cons st rest ih =>
    intro idx off
    cases hf : findSub st.text c with
    | some o =>
      rw [findInRuns, hf]
      constructor
      · intro h
        injection h with h
        injection h with h1 h2
        subst h1; subst h2
        exact ⟨Nat.succ_pos _, by simpa using hf,
          fun j hj => absurd hj (Nat.not_lt_zero j)⟩
      · rintro ⟨hidx, hat, hmin⟩
        rcases Nat.eq_zero_or_pos idx with h0 | h0
        · subst h0
          simp only [List.getD_cons_zero] at hat
          rw [hf] at hat
          injection hat with ho
          rw [ho]
        · have := hmin 0 h0
          simp only [List.getD_cons_zero] at this
          rw [hf] at this
          cases this
    | none =>
      rw [findInRuns, hf]
      constructor
      · intro h
        rcases Option.map_eq_some'.mp h with ⟨⟨i', o'⟩, hrec, hio⟩
        injection hio with h1 h2
        subst h1; subst h2
        rcases (ih i' o').mp hrec with ⟨hlt, hat, hmin⟩
        refine ⟨by simpa using Nat.succ_lt_succ hlt, by simpa using hat, ?_⟩
        intro j hj
        match j with
        | 0 => simpa using hf
        | Nat.succ j' =>
          have : j' < i' := by omega
          simpa using hmin j' this
      · rintro ⟨hidx, hat, hmin⟩
        rcases Nat.eq_zero_or_pos idx with h0 | h0
        · subst h0
          simp only [List.getD_cons_zero] at hat
          rw [hf] at hat
          cases hat
        · obtain ⟨i', rfl⟩ : ∃ i', idx = i' + 1 := ⟨idx - 1, by omega⟩
          have hrec : findInRuns rest c = some (i', off) := by
            refine (ih i' off).mpr ⟨by simpa using hidx, by simpa using hat, ?_⟩
            intro j hj
            have := hmin (j + 1) (by omega)
            simpa using this
          rw [hrec, Option.map_some']

theorem findInRuns_eq_none_iff :
    ∀ (raw : List StyledText) (c : List Char),
      findInRuns raw c = none ↔ ∀ st ∈ raw, findSub st.text c = none := by
  intro raw c
  induction raw with
  | nil => simp [findInRuns]
  | cons st rest ih =>
    cases hf : findSub st.text c with
    | some o =>
      rw [findInRuns, hf]
      refine iff_of_false (by simp) (fun hall => ?_)
      have := hall st (by simp)
      rw [hf] at this
      cases this
    | none =>
      rw [findInRuns, hf, Option.map_eq_none', ih]
      constructor
      · intro hall st' hst'
        rcases List.mem_cons.mp hst' with rfl | hmem
        · exact hf
        · exact hall st' hmem
      · intro hall st' hst'
        exact hall st' (List.mem_cons_of_mem _ hst')

/-! ### Helper lemmas: unfolding the two modify operations on success -/

theorem modify_eq_of_found {p : StyledParagraph} {style : Style} {c : List Char}
    {idx off : Nat} (hc : c ≠ []) (hfind : findInRuns p.raw c = some (idx, off)) :
    p.modify style c = (Except.ok (),
      ⟨p.raw.take idx
        ++ ((if (p.raw.getD idx default).text.take off = [] then [] else
            [StyledText.new ((p.raw.getD idx default).text.take off)
              (p.raw.getD idx default).style])
          ++ [StyledText.new c style]
          ++ (if (p.raw.getD idx default).text.drop (off + c.length) = [] then [] else
            [StyledText.new ((p.raw.getD idx default).text.drop (off + c.length))
              (p.raw.getD idx default).style]))
        ++ p.raw.drop (idx + 1)⟩) := by
  unfold StyledParagraph.modify
  rw [if_neg hc, hfind]

theorem modify_spanning_eq_of_found {p : StyledParagraph} {style : Style}
    {c : List Char} {k s m e : Nat} (hc : c ≠ [])
    (hss : spanningSearch p.raw c = some ((k, s), (m, e))) :
    p.modify_spanning style c = (Except.ok (),
      ⟨p.raw.take k
        ++ ((if 0 < s then
            [StyledText.new ((p.raw.getD k default).text.take s)
              (p.raw.getD k default).style]
          else [])
          ++ [StyledText.new c style]
          ++ (if e < (p.raw.getD m default).text.length then
            [StyledText.new ((p.raw.getD m default).text.drop e)
              (p.raw.getD m default).style]
          else []))
        ++ p.raw.drop (m + 1)⟩) := by
  unfold StyledParagraph.modify_spanning
  rw [if_neg hc, hss]

theorem modify_text_preserved {raw : List StyledText} {c : List Char}
    (style : Style) {idx off : Nat} (hidx : idx < raw.length)
    (hat : findSub (raw.getD idx default).text c = some off) :
    fullText (raw.take idx
      ++ ((if (raw.getD idx default).text.take off = [] then [] else
          [StyledText.new ((raw.getD idx default).text.take off)
            (raw.getD idx default).style])
        ++ [StyledText.new c style]
        ++ (if (raw.getD idx default).text.drop (off + c.length) = [] then [] else
          [StyledText.new ((raw.getD idx default).text.drop (off + c.length))
            (raw.getD idx default).style]))
      ++ raw.drop (idx + 1)) = fullText raw := by
  have hsplit := findSub_split hat
  have hpre : fullText (if (raw.getD idx default).text.take off = [] then [] else
      [StyledText.new ((raw.getD idx default).text.take off)
        (raw.getD idx default).style]) = (raw.getD idx default).text.take off := by
    by_cases h0 : (raw.getD idx default).text.take off = []
    · rw [if_pos h0, h0]
      rfl
    · rw [if_neg h0]
      show (raw.getD idx default).text.take off ++ ([] : List Char) = _
      rw [List.append_nil]
  have hsuf : fullText (if (raw.getD idx default).text.drop (off + c.length) = [] then [] else
      [StyledText.new ((raw.getD idx default).text.drop (off + c.length))
        (raw.getD idx default).style])
      = (raw.getD idx default).text.drop (off + c.length) := by
    by_cases h0 : (raw.getD idx default).text.drop (off + c.length) = []
    · rw [if_pos h0, h0]
      rfl
    · rw [if_neg h0]
      show (raw.getD idx default).text.drop (off + c.length) ++ ([] : List Char) = _
      rw [List.append_nil]
  have hch : fullText [StyledText.new c style] = c := by
    show c ++ ([] : List Char) = c
    rw [List.append_nil]
  simp only [fullText_append]
  rw [hpre, hsuf, hch]
  conv_rhs => rw [fullText_decomp raw idx hidx, hsplit]

theorem locateStart_zero {raw : List StyledText} (hne : raw ≠ [])
    (hall : ∀ st ∈ raw, st.text ≠ []) : locateStart raw 0 = some (0, 0) := by
  cases raw with
  | nil => exact absurd rfl hne
  | cons seg rest =>
    have : seg.text ≠ [] := hall seg (by simp)
    rw [locateStart, if_pos (List.length_pos.mpr this)]

/-! ### Claim theorems -/

/-- Claim C1: for every `StyledParagraph` and every successful `modify` or
`modify_spanning` call, the concatenation of `runs[i].text` over all runs in
order is the same string after the call as before it. -/
theorem claim1_text_preserved (p : StyledParagraph) (style : Style)
    (chunk : List Char) :
    ((p.modify style chunk).1 = Except.ok () →
      fullText (p.modify style chunk).2.raw = fullText p.raw) ∧
    ((p.modify_spanning style chunk).1 = Except.ok () →
      fullText (p.modify_spanning style chunk).2.raw = fullText p.raw) := by
  constructor
  · intro hok
    by_cases hc : chunk = []
    · unfold StyledParagraph.modify at hok
      rw [if_pos hc] at hok
      have hok' : (Except.error ParagraphModifyError.EmptyChunk
          : Except ParagraphModifyError Unit) = Except.ok () := hok
      cases hok'
    · cases hfind : findInRuns p.raw chunk with
      | none =>
        unfold StyledParagraph.modify at hok
        rw [if_neg hc, hfind] at hok
        have hok' : (Except.error (ParagraphModifyError.ChunkNotFound chunk)
            : Except ParagraphModifyError Unit) = Except.ok () := hok
        cases hok'
      | some q =>
        obtain ⟨idx, off⟩ := q
        obtain ⟨hidx, hat, -⟩ := (findInRuns_eq_some_iff p.raw chunk idx off).mp hfind
        rw [modify_eq_of_found hc hfind]
        exact modify_text_preserved style hidx hat
  · intro hok
    by_cases hc : chunk = []
    · unfold StyledParagraph.modify_spanning at hok
      rw [if_pos hc] at hok
      have hok' : (Except.error ParagraphModifyError.EmptyChunk
          : Except ParagraphModifyError Unit) = Except.ok () := hok
      cases hok'
    · cases hss : spanningSearch p.raw chunk with
      | none =>
        unfold StyledParagraph.modify_spanning at hok
        rw [if_neg hc, hss] at hok
        have hok' : (Except.error (ParagraphModifyError.ChunkNotFound chunk)
            : Except ParagraphModifyError Unit) = Except.ok () := hok
        cases hok'
      | some q =>
        obtain ⟨⟨k, s⟩, ⟨m, e⟩⟩ := q
        have hfb := hss
        rw [spanningSearch_eq p.raw chunk hc] at hfb
        obtain ⟨a, ha, hs, he⟩ := spanningFallback_eq_some_iff.mp hfb
        rw [modify_spanning_eq_of_found hc hss]
        exact spanning_text_preserved style ha hs he

theorem claim1_witness :
    fullText ((exPara.modify Style.new.switch_bold exChunk1).2).raw
        = fullText exPara.raw ∧
    fullText ((exParaSpan.modify_spanning Style.new.switch_bold exChunk2).2).raw
        = fullText exParaSpan.raw :=
  ⟨(claim1_text_preserved exPara Style.new.switch_bold exChunk1).1 (by rfl),
   (claim1_text_preserved exParaSpan Style.new.switch_bold exChunk2).2 (by rfl)⟩

/-- Claim C5: for a non-empty chunk, `modify` returns `ChunkNotFound` iff no
single run's text contains the chunk as a substring, `modify_spanning` returns
`ChunkNotFound` iff the chunk does not occur in the concatenated paragraph
text, and in either failure the run list is identical to before the call. -/
theorem claim5_not_found (p : StyledParagraph) (style : Style)
    (chunk : List Char) (hc : chunk ≠ []) :
    ((p.modify style chunk).1
        = Except.error (ParagraphModifyError.ChunkNotFound chunk) ↔
      ¬ ∃ st ∈ p.raw, chunk <:+: st.text) ∧
    ((p.modify_spanning style chunk).1
        = Except.error (ParagraphModifyError.ChunkNotFound chunk) ↔
      ¬ chunk <:+: fullText p.raw) ∧
    ((p.modify style chunk).1
        = Except.error (ParagraphModifyError.ChunkNotFound chunk) →
      (p.modify style chunk).2 = p) ∧
    ((p.modify_spanning style chunk).1
        = Except.error (ParagraphModifyError.ChunkNotFound chunk) →
      (p.modify_spanning style chunk).2 = p) := by
  have hmod_none : ∀ (hfind : findInRuns p.raw chunk = none),
      p.modify style chunk
        = (Except.error (ParagraphModifyError.ChunkNotFound chunk), p) := by
    intro hfind
    unfold StyledParagraph.modify
    rw [if_neg hc, hfind]
  have hspan_none : ∀ (hss : spanningSearch p.raw chunk = none),
      p.modify_spanning style chunk
        = (Except.error (ParagraphModifyError.ChunkNotFound chunk), p) := by
    intro hss
    unfold StyledParagraph.modify_spanning
    rw [if_neg hc, hss]
  refine ⟨?_, ?_, ?_, ?_⟩
  · cases hfind : findInRuns p.raw chunk with
    | none =>
      rw [hmod_none hfind]
      refine iff_of_true rfl ?_
      rintro ⟨st, hmem, hinf⟩
      obtain ⟨i, hp⟩ := infix_iff_exists_drop.mp hinf
      exact (findSub_eq_none_iff st.text chunk).mp
        ((findInRuns_eq_none_iff p.raw chunk).mp hfind st hmem) i hp
    | some q =>
      obtain ⟨idx, off⟩ := q
      obtain ⟨hidx, hat, -⟩ := (findInRuns_eq_some_iff p.raw chunk idx off).mp hfind
      rw [modify_eq_of_found hc hfind]
      refine iff_of_false ?_ ?_
      · intro h
        have h' : (Except.ok () : Except ParagraphModifyError Unit)
            = Except.error (ParagraphModifyError.ChunkNotFound chunk) := h
        cases h'
      · intro hno
        refine hno ⟨p.raw.getD idx default, ?_, ?_⟩
        · rw [List.getD_eq_getElem _ _ hidx]
          exact List.getElem_mem hidx
        · exact infix_iff_exists_drop.mpr
            ⟨off, ((findSub_eq_some_iff _ _ off).mp hat).1⟩
  · cases hss : spanningSearch p.raw chunk with
    | none =>
      rw [hspan_none hss]
      refine iff_of_true rfl ?_
      intro hinf
      obtain ⟨i, hp⟩ := infix_iff_exists_drop.mp hinf
      obtain ⟨a, hfa, -⟩ := exists_findSub hp
      have hb := findSub_bound hfa
      have hclen : 0 < chunk.length := List.length_pos.mpr hc
      obtain ⟨ks, hks⟩ := locateStart_isSome p.raw a (by omega)
      obtain ⟨me, hme⟩ := locateEnd_isSome p.raw (a + chunk.length) (by omega) (by omega)
      have : spanningFallback p.raw chunk = some (ks, me) := by
        rw [spanningFallback_some_eq hfa, hks, hme]
      rw [spanningSearch_eq p.raw chunk hc, this] at hss
      cases hss
    | some q =>
      obtain ⟨⟨k, s⟩, ⟨m, e⟩⟩ := q
      have hfb := hss
      rw [spanningSearch_eq p.raw chunk hc] at hfb
      obtain ⟨a, ha, -, -⟩ := spanningFallback_eq_some_iff.mp hfb
      rw [modify_spanning_eq_of_found hc hss]
      refine iff_of_false ?_ ?_
      · intro h
        have h' : (Except.ok () : Except ParagraphModifyError Unit)
            = Except.error (ParagraphModifyError.ChunkNotFound chunk) := h
        cases h'
      · intro hno
        exact hno (infix_iff_exists_drop.mpr
          ⟨a, ((findSub_eq_some_iff _ _ a).mp ha).1⟩)
  · intro herr
    cases hfind : findInRuns p.raw chunk with
    | none => rw [hmod_none hfind]
    | some q =>
      obtain ⟨idx, off⟩ := q
      rw [modify_eq_of_found hc hfind] at herr
      have h' : (Except.ok () : Except ParagraphModifyError Unit)
          = Except.error (ParagraphModifyError.ChunkNotFound chunk) := herr
      cases h'
  · intro herr
    cases hss : spanningSearch p.raw chunk with
    | none => rw [hspan_none hss]
    | some q =>
      obtain ⟨⟨k, s⟩, ⟨m, e⟩⟩ := q
      rw [modify_spanning_eq_of_found hc hss] at herr
      have h' : (Except.ok () : Except ParagraphModifyError Unit)
          = Except.error (ParagraphModifyError.ChunkNotFound chunk) := herr
      cases h'

theorem claim5_witness :
    (exPara.modify Style.new exMissing).2 = exPara ∧
    (exParaSpan.modify_spanning Style.new exMissing).2 = exParaSpan :=
  ⟨(claim5_not_found exPara Style.new exMissing (by decide)).2.2.1 (by rfl),
   (claim5_not_found exParaSpan Style.new exMissing (by decide)).2.2.2 (by rfl)⟩

/-- Claim C6: calling either modify operation with the empty chunk returns
`EmptyChunk` before any search occurs, and the run list is unchanged, for
every paragraph (including the empty one) and every style. -/
theorem claim6_empty_chunk (p : StyledParagraph) (style : Style) :
    p.modify style [] = (Except.error ParagraphModifyError.EmptyChunk, p) ∧
    p.modify_spanning style []
      = (Except.error ParagraphModifyError.EmptyChunk, p) := by
  constructor
  · unfold StyledParagraph.modify
    rw [if_pos rfl]
  · unfold StyledParagraph.modify_spanning
    rw [if_pos rfl]

/-- Claim C2: a successful `modify` replaces the first run containing the
chunk (at the first offset where the chunk occurs in that run's text) by the
non-empty prefix with the original style, the chunk with the new style, and
the non-empty suffix with the original style, leaving all other runs
unchanged; in particular the single run "This is a test." with chunk "is a"
splits into exactly ["This ", "is a", " test."] with styles
[original, bold, original], and a single run equal to the chunk yields exactly
one run. -/
theorem claim2_modify_shape :
    (∀ (p : StyledParagraph) (style : Style) (chunk : List Char) (idx off : Nat),
      chunk ≠ [] → idx < p.raw.length →
      (∀ j, j < idx → ¬ chunk <:+: (p.raw.getD j default).text) →
      chunk <+: ((p.raw.getD idx default).text.drop off) →
      (∀ t, t < off → ¬ chunk <+: ((p.raw.getD idx default).text.drop t)) →
      p.modify style chunk = (Except.ok (),
        ⟨p.raw.take idx
          ++ ((if (p.raw.getD idx default).text.take off = [] then [] else
              [StyledText.new ((p.raw.getD idx default).text.take off)
                (p.raw.getD idx default).style])
            ++ [StyledText.new chunk style]
            ++ (if (p.raw.getD idx default).text.drop (off + chunk.length) = []
                then [] else
              [StyledText.new ((p.raw.getD idx default).text.drop (off + chunk.length))
                (p.raw.getD idx default).style]))
          ++ p.raw.drop (idx + 1)⟩)) ∧
    exPara.modify Style.new.switch_bold exChunk1 = (Except.ok (),
      ⟨[StyledText.new exPre1 Style.new,
        StyledText.new exChunk1 Style.new.switch_bold,
        StyledText.new exSuf1 Style.new]⟩) ∧
    (∀ (sty newSty : Style) (t : List Char), t ≠ [] →
      (StyledParagraph.mk [StyledText.new t sty]).modify newSty t
        = (Except.ok (), ⟨[StyledText.new t newSty]⟩)) := by
  refine ⟨?_, by rfl, ?_⟩
  · intro p style chunk idx off hc hidx hbefore hat hmin
    have hfk : findSub (p.raw.getD idx default).text chunk = some off :=
      (findSub_eq_some_iff _ _ off).mpr ⟨hat, hmin⟩
    have hnone : ∀ j, j < idx → findSub (p.raw.getD j default).text chunk = none := by
      intro j hj
      rw [findSub_eq_none_iff]
      intro t hp
      exact hbefore j hj (infix_iff_exists_drop.mpr ⟨t, hp⟩)
    exact modify_eq_of_found hc
      ((findInRuns_eq_some_iff p.raw chunk idx off).mpr ⟨hidx, hfk, hnone⟩)
  · intro sty newSty t ht
    have hf : findSub t t = some 0 := by
      rw [findSub_eq_some_iff]
      exact ⟨by simp, fun j hj => absurd hj (Nat.not_lt_zero j)⟩
    have hfind : findInRuns [StyledText.new t sty] t = some (0, 0) := by
      have : findInRuns [StyledText.new t sty] t =
          match findSub t t with
          | some off => some (0, off)
          | none => (findInRuns [] t).map (fun q => (q.1 + 1, q.2)) := rfl
      rw [this, hf]
    rw [modify_eq_of_found ht hfind]
    have hdrop : t.drop (0 + t.length) = [] := by
      rw [Nat.zero_add]
      exact List.drop_length t
    have hgd : ([StyledText.new t sty].getD 0 default) = StyledText.new t sty := rfl
    rw [hgd]
    show (Except.ok (), StyledParagraph.mk
        ([] ++ ((if t.take 0 = [] then [] else
            [StyledText.new (t.take 0) sty])
          ++ [StyledText.new t newSty]
          ++ (if t.drop (0 + t.length) = [] then [] else
            [StyledText.new (t.drop (0 + t.length)) sty]))
          ++ [])) = _
    rw [hdrop, List.take_zero]
    rfl

theorem claim2_witness :
    exPara.modify Style.new.switch_bold exChunk1 = (Except.ok (),
      ⟨[StyledText.new exPre1 Style.new,
        StyledText.new exChunk1 Style.new.switch_bold,
        StyledText.new exSuf1 Style.new]⟩) := by
  have h := claim2_modify_shape.1 exPara Style.new.switch_bold exChunk1 0 5
    (by decide) (by decide) (fun j hj => absurd hj (Nat.not_lt_zero j))
    (by decide) (by decide)
  exact h.trans (by rfl)

/-- Claim C3: a successful `modify_spanning` replaces the runs from the start
run through the end run of the first occurrence by the start run's non-empty
prefix with its original style, one run holding exactly the chunk with the new
style, and the end run's non-empty suffix with its original style, discarding
all runs strictly between; in particular runs ["Part1 ", "Part2"] with chunk
"t1 P" yield ["Par", "t1 P", "art2"] with styles [A, new, B]. -/
theorem claim3_spanning_shape :
    (∀ (p : StyledParagraph) (style : Style) (chunk : List Char)
        (a k s m e : Nat),
      chunk ≠ [] →
      findSub (fullText p.raw) chunk = some a →
      locateStart p.raw a = some (k, s) →
      locateEnd p.raw (a + chunk.length) = some (m, e) →
      p.modify_spanning style chunk = (Except.ok (),
        ⟨p.raw.take k
          ++ ((if (p.raw.getD k default).text.take s = [] then [] else
              [StyledText.new ((p.raw.getD k default).text.take s)
                (p.raw.getD k default).style])
            ++ [StyledText.new chunk style]
            ++ (if (p.raw.getD m default).text.drop e = [] then [] else
              [StyledText.new ((p.raw.getD m default).text.drop e)
                (p.raw.getD m default).style]))
          ++ p.raw.drop (m + 1)⟩)) ∧
    (∀ (styleA styleB newSty : Style),
      (StyledParagraph.mk [StyledText.new exPartA styleA,
          StyledText.new exPartB styleB]).modify_spanning newSty exChunk2
        = (Except.ok (), ⟨[StyledText.new exPre2 styleA,
            StyledText.new exChunk2 newSty,
            StyledText.new exSuf2 styleB]⟩)) := by
  constructor
  · intro p style chunk a k s m e hc ha hs he
    obtain ⟨hk, hsl, hsum⟩ := locateStart_spec p.raw a k s hs
    obtain ⟨hm, hel, hesum⟩ := locateEnd_spec p.raw _ m e he
    have hss : spanningSearch p.raw chunk = some ((k, s), (m, e)) := by
      rw [spanningSearch_eq p.raw chunk hc]
      exact spanningFallback_eq_some_iff.mpr ⟨a, ha, hs, he⟩
    rw [modify_spanning_eq_of_found hc hss]
    have htkne : (p.raw.getD k default).text ≠ [] := by
      intro h
      rw [h] at hsl
      simp at hsl
    have h1 : (if 0 < s then
        [StyledText.new ((p.raw.getD k default).text.take s)
          (p.raw.getD k default).style] else [])
        = (if (p.raw.getD k default).text.take s = [] then [] else
        [StyledText.new ((p.raw.getD k default).text.take s)
          (p.raw.getD k default).style]) := by
      by_cases h0 : 0 < s
      · rw [if_pos h0, if_neg]
        intro hnil
        rcases List.take_eq_nil_iff.mp hnil with h | h
        · omega
        · exact htkne h
      · rw [if_neg h0]
        have hs0 : s = 0 := by omega
        rw [hs0, List.take_zero, if_pos rfl]
    have h2 : (if e < (p.raw.getD m default).text.length then
        [StyledText.new ((p.raw.getD m default).text.drop e)
          (p.raw.getD m default).style] else [])
        = (if (p.raw.getD m default).text.drop e = [] then [] else
        [StyledText.new ((p.raw.getD m default).text.drop e)
          (p.raw.getD m default).style]) := by
      by_cases h0 : e < (p.raw.getD m default).text.length
      · rw [if_pos h0, if_neg]
        intro hnil
        rw [List.drop_eq_nil_iff] at hnil
        omega
      · rw [if_neg h0, if_pos (List.drop_eq_nil_of_le (by omega))]
    rw [h1, h2]
  · intro styleA styleB newSty
    rfl

theorem claim3_witness :
    exParaSpan.modify_spanning Style.new.switch_bold exChunk2
      = (Except.ok (), ⟨[StyledText.new exPre2 Style.new,
          StyledText.new exChunk2 Style.new.switch_bold,
          StyledText.new exSuf2 Style.new.switch_italic]⟩) := by
  have h := claim3_spanning_shape.1 exParaSpan Style.new.switch_bold exChunk2
    3 0 3 1 1 (by decide) (by decide) (by decide) (by decide)
  exact h.trans (by rfl)

/-- Claim C4: whenever the first occurrence of a non-empty chunk in the
concatenated paragraph text lies entirely within one run (the located start
run equals the located end run), `modify_spanning` succeeds and produces the
same resulting run list as `modify` on the same paragraph. -/
theorem claim4_spanning_degenerates (p : StyledParagraph) (style : Style)
    (chunk : List Char) (a k s e : Nat) (hc : chunk ≠ [])
    (ha : findSub (fullText p.raw) chunk = some a)
    (hs : locateStart p.raw a = some (k, s))
    (he : locateEnd p.raw (a + chunk.length) = some (k, e)) :
    p.modify_spanning style chunk = p.modify style chunk ∧
    (p.modify_spanning style chunk).1 = Except.ok () := by
  obtain ⟨hk, hsl, hsum⟩ := locateStart_spec p.raw a k s hs
  obtain ⟨hk2, hel, hesum⟩ := locateEnd_spec p.raw _ k e he
  have hclen : 0 < chunk.length := List.length_pos.mpr hc
  have hes : e = s + chunk.length := by omega
  obtain ⟨hfl, hfmin⟩ := (findSub_eq_some_iff _ _ a).mp ha
  have hps : chunk <+: (p.raw.getD k default).text.drop s := by
    apply occ_in_run hk (by omega)
    rw [hsum]
    exact hfl
  have hfk : findSub (p.raw.getD k default).text chunk = some s := by
    rw [findSub_eq_some_iff]
    refine ⟨hps, ?_⟩
    intro t htlt hp
    have h1 : chunk <+: (fullText p.raw).drop
        ((fullText (p.raw.take k)).length + t) :=
      occ_in_full hk (by omega) hp
    exact hfmin ((fullText (p.raw.take k)).length + t) (by omega) h1
  have hbefore : ∀ j, j < k →
      findSub (p.raw.getD j default).text chunk = none := by
    intro j hj
    rw [findSub_eq_none_iff]
    intro t hp
    have hjlen : j < p.raw.length := by omega
    have htlen : t ≤ (p.raw.getD j default).text.length := by
      by_contra hgt
      rw [List.drop_eq_nil_of_le (by omega)] at hp
      exact hc (List.prefix_nil.mp hp)
    have hlp := hp.length_le
    rw [List.length_drop] at hlp
    have htb : t + chunk.length ≤ (p.raw.getD j default).text.length := by omega
    have h1 : chunk <+: (fullText p.raw).drop
        ((fullText (p.raw.take j)).length + t) :=
      occ_in_full hjlen htlen hp
    have hmono : (fullText (p.raw.take (j + 1))).length
        ≤ (fullText (p.raw.take k)).length :=
      fullText_take_le p.raw (by omega)
    have hsucc : (fullText (p.raw.take (j + 1))).length
        = (fullText (p.raw.take j)).length
          + (p.raw.getD j default).text.length := by
      rw [fullText_take_succ p.raw j hjlen, List.length_append]
    exact hfmin _ (by omega) h1
  have hfind : findInRuns p.raw chunk = some (k, s) :=
    (findInRuns_eq_some_iff p.raw chunk k s).mpr ⟨hk, hfk, hbefore⟩
  have hss : spanningSearch p.raw chunk = some ((k, s), (k, e)) := by
    rw [spanningSearch_eq p.raw chunk hc]
    exact spanningFallback_eq_some_iff.mpr ⟨a, ha, hs, he⟩
  rw [modify_eq_of_found hc hfind, modify_spanning_eq_of_found hc hss]
  have htkne : (p.raw.getD k default).text ≠ [] := by
    intro h
    rw [h] at hsl
    simp at hsl
  have h1 : (if 0 < s then
      [StyledText.new ((p.raw.getD k default).text.take s)
        (p.raw.getD k default).style] else [])
      = (if (p.raw.getD k default).text.take s = [] then [] else
      [StyledText.new ((p.raw.getD k default).text.take s)
        (p.raw.getD k default).style]) := by
    by_cases h0 : 0 < s
    · rw [if_pos h0, if_neg]
      intro hnil
      rcases List.take_eq_nil_iff.mp hnil with h | h
      · omega
      · exact htkne h
    · rw [if_neg h0]
      have hs0 : s = 0 := by omega
      rw [hs0, List.take_zero, if_pos rfl]
  have h2 : (if e < (p.raw.getD k default).text.length then
      [StyledText.new ((p.raw.getD k default).text.drop e)
        (p.raw.getD k default).style] else [])
      = (if (p.raw.getD k default).text.drop (s + chunk.length) = [] then []
      else [StyledText.new ((p.raw.getD k default).text.drop (s + chunk.length))
        (p.raw.getD k default).style]) := by
    rw [← hes]
    by_cases h0 : e < (p.raw.getD k default).text.length
    · rw [if_pos h0, if_neg]
      intro hnil
      rw [List.drop_eq_nil_iff] at hnil
      omega
    · rw [if_neg h0, if_pos (List.drop_eq_nil_of_le (by omega))]
  constructor
  · rw [h1, h2]
  · rfl

theorem claim4_witness :
    exPara.modify_spanning Style.new.switch_bold exChunk1
        = exPara.modify Style.new.switch_bold exChunk1 ∧
    (exPara.modify_spanning Style.new.switch_bold exChunk1).1
        = Except.ok () :=
  claim4_spanning_degenerates exPara Style.new.switch_bold exChunk1 5 0 5 9
    (by decide) (by decide) (by decide) (by decide)

/-- Claim C7: if every run of a paragraph has non-empty text, then after any
successful `modify` or `modify_spanning` call with a non-empty chunk every
run still has non-empty text; and when the chunk equals the entire
concatenation of the runs' text, `modify_spanning` produces exactly one run. -/
theorem claim7_no_empty_runs (p : StyledParagraph) (style : Style)
    (chunk : List Char) :
    ((∀ st ∈ p.raw, st.text ≠ []) → (p.modify style chunk).1 = Except.ok () →
      ∀ st ∈ (p.modify style chunk).2.raw, st.text ≠ []) ∧
    ((∀ st ∈ p.raw, st.text ≠ []) →
      (p.modify_spanning style chunk).1 = Except.ok () →
      ∀ st ∈ (p.modify_spanning style chunk).2.raw, st.text ≠ []) ∧
    ((∀ st ∈ p.raw, st.text ≠ []) → chunk ≠ [] → chunk = fullText p.raw →
      p.modify_spanning style chunk
        = (Except.ok (), ⟨[StyledText.new chunk style]⟩)) := by
  refine ⟨?_, ?_, ?_⟩
  · intro hall hok st hmem
    by_cases hc : chunk = []
    · unfold StyledParagraph.modify at hok
      rw [if_pos hc] at hok
      have hok' : (Except.error ParagraphModifyError.EmptyChunk
          : Except ParagraphModifyError Unit) = Except.ok () := hok
      cases hok'
    · cases hfind : findInRuns p.raw chunk with
      | none =>
        unfold StyledParagraph.modify at hok
        rw [if_neg hc, hfind] at hok
        have hok' : (Except.error (ParagraphModifyError.ChunkNotFound chunk)
            : Except ParagraphModifyError Unit) = Except.ok () := hok
        cases hok'
      | some q =>
        obtain ⟨idx, off⟩ := q
        rw [modify_eq_of_found hc hfind] at hmem
        simp only [List.mem_append] at hmem
        rcases hmem with (hmem | ((hmem | hmem) | hmem)) | hmem
        · exact hall st (List.mem_of_mem_take hmem)
        · by_cases h0 : (p.raw.getD idx default).text.take off = []
          · rw [if_pos h0] at hmem
            cases hmem
          · rw [if_neg h0] at hmem
            rcases List.mem_singleton.mp hmem with rfl
            exact h0
        · rcases List.mem_singleton.mp hmem with rfl
          exact hc
        · by_cases h0 : (p.raw.getD idx default).text.drop
              (off + chunk.length) = []
          · rw [if_pos h0] at hmem
            cases hmem
          · rw [if_neg h0] at hmem
            rcases List.mem_singleton.mp hmem with rfl
            exact h0
        · exact hall st (List.mem_of_mem_drop hmem)
  · intro hall hok st hmem
    by_cases hc : chunk = []
    · unfold StyledParagraph.modify_spanning at hok
      rw [if_pos hc] at hok
      have hok' : (Except.error ParagraphModifyError.EmptyChunk
          : Except ParagraphModifyError Unit) = Except.ok () := hok
      cases hok'
    · cases hss : spanningSearch p.raw chunk with
      | none =>
        unfold StyledParagraph.modify_spanning at hok
        rw [if_neg hc, hss] at hok
        have hok' : (Except.error (ParagraphModifyError.ChunkNotFound chunk)
            : Except ParagraphModifyError Unit) = Except.ok () := hok
        cases hok'
      | some q =>
        obtain ⟨⟨k, s⟩, ⟨m, e⟩⟩ := q
        obtain ⟨hk, hsl, hm, hel⟩ := spanningSearch_bounds hc hss
        rw [modify_spanning_eq_of_found hc hss] at hmem
        have hkne : (p.raw.getD k default).text ≠ [] := by
          intro h
          rw [h] at hsl
          simp at hsl
        simp only [List.mem_append] at hmem
        rcases hmem with (hmem | ((hmem | hmem) | hmem)) | hmem
        · exact hall st (List.mem_of_mem_take hmem)
        · by_cases h0 : 0 < s
          · rw [if_pos h0] at hmem
            rcases List.mem_singleton.mp hmem with rfl
            show (p.raw.getD k default).text.take s ≠ []
            intro hnil
            rcases List.take_eq_nil_iff.mp hnil with h | h
            · omega
            · exact hkne h
          · rw [if_neg h0] at hmem
            cases hmem
        · rcases List.mem_singleton.mp hmem with rfl
          exact hc
        · by_cases h0 : e < (p.raw.getD m default).text.length
          · rw [if_pos h0] at hmem
            rcases List.mem_singleton.mp hmem with rfl
            show (p.raw.getD m default).text.drop e ≠ []
            intro hnil
            rw [List.drop_eq_nil_iff] at hnil
            omega
          · rw [if_neg h0] at hmem
            cases hmem
        · exact hall st (List.mem_of_mem_drop hmem)
  · intro hall hcne hchunk
    have hrawne : p.raw ≠ [] := by
      intro h
      rw [h, fullText_nil] at hchunk
      exact hcne hchunk
    have hf : findSub (fullText p.raw) chunk = some 0 := by
      rw [findSub_eq_some_iff]
      refine ⟨?_, fun j hj => absurd hj (Nat.not_lt_zero j)⟩
      rw [List.drop_zero]
      exact hchunk ▸ List.prefix_refl chunk
    have hle : locateEnd p.raw (0 + chunk.length)
        = some (p.raw.length - 1,
            (p.raw.getD (p.raw.length - 1) default).text.length) := by
      rw [Nat.zero_add, hchunk]
      exact locateEnd_full p.raw hrawne hall
    have hss : spanningSearch p.raw chunk = some ((0, 0),
        (p.raw.length - 1,
          (p.raw.getD (p.raw.length - 1) default).text.length)) := by
      rw [spanningSearch_eq _ _ hcne]
      exact spanningFallback_eq_some_iff.mpr
        ⟨0, hf, locateStart_zero hrawne hall, hle⟩
    rw [modify_spanning_eq_of_found hcne hss]
    have hdrop : p.raw.drop (p.raw.length - 1 + 1) = [] := by
      rw [List.drop_eq_nil_iff]
      have := List.length_pos.mpr hrawne
      omega
    rw [hdrop]
    simp

theorem claim7_witness :
    (∀ st ∈ ((exPara.modify Style.new.switch_bold exChunk1).2).raw,
      st.text ≠ []) ∧
    exParaSpan.modify_spanning Style.new.switch_bold (exPartA ++ exPartB)
      = (Except.ok (),
          ⟨[StyledText.new (exPartA ++ exPartB) Style.new.switch_bold]⟩) :=
  ⟨(claim7_no_empty_runs exPara Style.new.switch_bold exChunk1).1
      (by decide) (by rfl),
   (claim7_no_empty_runs exParaSpan Style.new.switch_bold
      (exPartA ++ exPartB)).2.2 (by decide) (by decide) (by rfl)⟩

/-- Claim C8: the hex-color validation used by `change_font_color` and
`change_font_highlight` accepts exactly the strings made of `#` followed by 6
or 8 hexadecimal digits, and every violation fails with `InvalidHexColor`;
"#000000" and "#AABBCCDD" are accepted while "000000", "#12345" and "#GGHHII"
are rejected. -/
theorem claim8_hex_validation :
    (∀ s : List Char, check_hex s = Except.ok () ↔
      ∃ rest, s = '#' :: rest ∧ (rest.length = 6 ∨ rest.length = 8) ∧
        rest.all isAsciiHexDigit = true) ∧
    (∀ (sty : Style) (s : List Char), check_hex s = Except.ok () →
      sty.change_font_color s = Except.ok { sty with font_color := s } ∧
      sty.change_font_highlight (some s)
        = Except.ok { sty with highlight_color := some s }) ∧
    (∀ (sty : Style) (s : List Char), check_hex s ≠ Except.ok () →
      sty.change_font_color s = Except.error (StyleError.InvalidHexColor s) ∧
      sty.change_font_highlight (some s)
        = Except.error (StyleError.InvalidHexColor s)) ∧
    check_hex hex000000 = Except.ok () ∧
    check_hex hexAABBCCDD = Except.ok () ∧
    check_hex hexNoHash = Except.error (StyleError.InvalidHexColor hexNoHash) ∧
    check_hex hex12345 = Except.error (StyleError.InvalidHexColor hex12345) ∧
    check_hex hexGGHHII = Except.error (StyleError.InvalidHexColor hexGGHHII) := by
  have hok_iff : ∀ s : List Char, check_hex s = Except.ok () ↔
      startsWithHash s = true ∧
        ((s.drop 1).length = 6 ∨ (s.drop 1).length = 8) ∧
        (s.drop 1).all isAsciiHexDigit = true := by
    intro s
    unfold check_hex
    by_cases h1 : startsWithHash s = false
    · rw [if_pos h1]
      refine iff_of_false (fun h => by cases h) (fun h => ?_)
      rw [h.1] at h1
      cases h1
    · rw [if_neg h1]
      have hw : startsWithHash s = true := by
        cases hb : startsWithHash s
        · exact absurd hb h1
        · rfl
      by_cases h2 : (s.drop 1).length = 6 ∨ (s.drop 1).length = 8
      · rw [if_neg (not_not_intro h2)]
        by_cases h3 : (s.drop 1).all isAsciiHexDigit = true
        · rw [if_neg (not_not_intro h3)]
          exact iff_of_true rfl ⟨hw, h2, h3⟩
        · rw [if_pos h3]
          exact iff_of_false (fun h => by cases h) (fun h => h3 h.2.2)
      · rw [if_pos h2]
        exact iff_of_false (fun h => by cases h) (fun h => h2 h.2.1)
  have herr : ∀ s : List Char, check_hex s ≠ Except.ok () →
      check_hex s = Except.error (StyleError.InvalidHexColor s) := by
    intro s h
    cases hch : check_hex s with
    | ok u =>
      cases u
      exact absurd hch h
    | error e =>
      have he : e = StyleError.InvalidHexColor s := by
        unfold check_hex at hch
        split at hch
        · injection hch with h'
          exact h'.symm
        · split at hch
          · injection hch with h'
            exact h'.symm
          · split at hch
            · injection hch with h'
              exact h'.symm
            · cases hch
      rw [he]
  refine ⟨?_, ?_, ?_, by rfl, by rfl, by rfl, by rfl, by rfl⟩
  · intro s
    rw [hok_iff]
    constructor
    · rintro ⟨h1, h2, h3⟩
      cases s with
      | nil => cases h1
      | cons c rest =>
        have hc : c = '#' := by
          have hb : (c == '#') = true := h1
          simpa using hb
        subst hc
        exact ⟨rest, rfl, by simpa using h2, by simpa using h3⟩
    · rintro ⟨rest, rfl, h2, h3⟩
      refine ⟨by simp [startsWithHash], by simpa using h2, by simpa using h3⟩
  · intro sty s h
    constructor
    · unfold Style.change_font_color
      rw [h]
    · unfold Style.change_font_highlight
      show (match check_hex s with
        | Except.error e => Except.error e
        | Except.ok _ => Except.ok { sty with highlight_color := some s }) = _
      rw [h]
  · intro sty s h
    have he := herr s h
    constructor
    · unfold Style.change_font_color
      rw [he]
    · unfold Style.change_font_highlight
      show (match check_hex s with
        | Except.error e => Except.error e
        | Except.ok _ => Except.ok { sty with highlight_color := some s }) = _
      rw [he]

theorem claim8_witness :
    Style.new.change_font_color hex000000
        = Except.ok { Style.new with font_color := hex000000 } ∧
    Style.new.change_font_color hexGGHHII
        = Except.error (StyleError.InvalidHexColor hexGGHHII) :=
  ⟨(claim8_hex_validation.2.1 Style.new hex000000 (by rfl)).1,
   (claim8_hex_validation.2.2.1 Style.new hexGGHHII (by
      intro h
      have h' : (Except.error (StyleError.InvalidHexColor hexGGHHII)
          : Except StyleError Unit) = Except.ok () := h
      cases h')).1⟩

/-- Claim C9: `change_style` is atomic: whenever the corresponding Style
mutator fails, `change_style` returns that error and leaves the `StyledText`
(text and style) exactly as before the call — no error is swallowed and no
partial assignment happens; the old style is replaced by the mutator's result
exactly when the mutator succeeds. -/
theorem claim9_change_style_atomic (oracle : List Char → FontOracleResult)
    (st : StyledText) (cmd : ApplicableStyles) :
    (∀ e, styleMutator oracle st.style cmd = Except.error e →
      st.change_style oracle cmd = (Except.error e, st)) ∧
    (∀ sty, styleMutator oracle st.style cmd = Except.ok sty →
      st.change_style oracle cmd = (Except.ok (), ⟨st.text, sty⟩)) := by
  have hcs : st.change_style oracle cmd =
      match styleMutator oracle st.style cmd with
      | Except.error e => (Except.error e, st)
      | Except.ok sty => (Except.ok (), ⟨st.text, sty⟩) := by
    cases cmd with
    | Bold => rfl
    | Italic => rfl
    | Underline u => rfl
    | Size n => rfl
    | Color s =>
      show (match st.style.change_font_color s with
        | Except.error e => (Except.error e, st)
        | Except.ok sty => (Except.ok (), StyledText.mk st.text sty)) = _
      cases hm : st.style.change_font_color s with
      | error e => rw [show styleMutator oracle st.style
          (ApplicableStyles.Color s) = st.style.change_font_color s from rfl, hm]
      | ok sty => rw [show styleMutator oracle st.style
          (ApplicableStyles.Color s) = st.style.change_font_color s from rfl, hm]
    | Highlight s =>
      show (match st.style.change_font_highlight s with
        | Except.error e => (Except.error e, st)
        | Except.ok sty => (Except.ok (), StyledText.mk st.text sty)) = _
      cases hm : st.style.change_font_highlight s with
      | error e => rw [show styleMutator oracle st.style
          (ApplicableStyles.Highlight s)
            = st.style.change_font_highlight s from rfl, hm]
      | ok sty => rw [show styleMutator oracle st.style
          (ApplicableStyles.Highlight s)
            = st.style.change_font_highlight s from rfl, hm]
    | Font s =>
      show (match st.style.change_font oracle s with
        | Except.error e => (Except.error e, st)
        | Except.ok sty => (Except.ok (), StyledText.mk st.text sty)) = _
      cases hm : st.style.change_font oracle s with
      | error e => rw [show styleMutator oracle st.style
          (ApplicableStyles.Font s) = st.style.change_font oracle s from rfl, hm]
      | ok sty => rw [show styleMutator oracle st.style
          (ApplicableStyles.Font s) = st.style.change_font oracle s from rfl, hm]
  rw [hcs]
  cases hm : styleMutator oracle st.style cmd with
  | error e' =>
    constructor
    · intro e he
      injection he with h
      subst h
      rfl
    · intro sty hsty
      cases hsty
  | ok sty' =>
    constructor
    · intro e he
      cases he
    · intro sty hsty
      injection hsty with h
      subst h
      rfl

theorem claim9_witness :
    (StyledText.new exText1 Style.new).change_style oracleNone
        (ApplicableStyles.Font fontZ)
      = (Except.error (StyleError.FontNotFound fontZ),
          StyledText.new exText1 Style.new) ∧
    (StyledText.new exText1 Style.new).change_style oracleNone
        (ApplicableStyles.Color hexGGHHII)
      = (Except.error (StyleError.InvalidHexColor hexGGHHII),
          StyledText.new exText1 Style.new) :=
  ⟨(claim9_change_style_atomic oracleNone (StyledText.new exText1 Style.new)
      (ApplicableStyles.Font fontZ)).1
      (StyleError.FontNotFound fontZ) (by rfl),
   (claim9_change_style_atomic oracleNone (StyledText.new exText1 Style.new)
      (ApplicableStyles.Color hexGGHHII)).1
      (StyleError.InvalidHexColor hexGGHHII) (by rfl)⟩

/-- Claim C10: `remove_paragraph`, `get_paragraph` and `get_paragraph_mut`
return `None` for every index at or beyond the number of paragraphs (never a
fault) and leave the document unchanged in the out-of-bounds remove case; for
every in-bounds index they return/remove the paragraph at that position. -/
theorem claim10_document_bounds (d : Document) (index : Nat) :
    (d.content.length ≤ index →
      d.remove_paragraph index = (none, d) ∧
      d.get_paragraph index = none ∧ d.get_paragraph_mut index = none) ∧
    (index < d.content.length →
      d.get_paragraph index = some (d.content.getD index default) ∧
      d.get_paragraph_mut index = some (d.content.getD index default) ∧
      d.remove_paragraph index =
        (some (d.content.getD index default),
          { d with content := d.content.take index
              ++ d.content.drop (index + 1) })) := by
  constructor
  · intro h
    have hnone : d.content.get? index = none := by
      rw [List.get?_eq_getElem?]
      exact List.getElem?_eq_none h
    refine ⟨?_, hnone, hnone⟩
    unfold Document.remove_paragraph
    rw [if_neg (by omega)]
  · intro h
    have hget : d.content.get? index = some (d.content.getD index default) := by
      rw [List.get?_eq_getElem?, List.getElem?_eq_getElem h,
        List.getD_eq_getElem d.content default h]
    refine ⟨hget, hget, ?_⟩
    unfold Document.remove_paragraph
    rw [if_pos h, hget, List.eraseIdx_eq_take_drop_succ]

theorem claim10_witness :
    (Document.mk [StyledParagraph.mk [StyledText.new exText1 Style.new]]
        { title := ['T'] }).remove_paragraph 3
      = (none, Document.mk [StyledParagraph.mk [StyledText.new exText1 Style.new]]
          { title := ['T'] }) ∧
    (Document.mk [StyledParagraph.mk [StyledText.new exText1 Style.new]]
        { title := ['T'] }).get_paragraph 0
      = some (StyledParagraph.mk [StyledText.new exText1 Style.new]) :=
  ⟨((claim10_document_bounds _ 3).1 (by decide)).1,
   by
    have h := ((claim10_document_bounds (Document.mk
      [StyledParagraph.mk [StyledText.new exText1 Style.new]]
      { title := ['T'] }) 0).2 (by decide)).1
    exact h.trans (by rfl)⟩

end Edda
